import Mathlib

/-!
Verification of the PageRank implementation in `src/pagerank.py`.

Pages are modelled as natural numbers.  A Python dict from pages to link
sets becomes a `Corpus` (key set plus link-set function); a dict from
pages to floats becomes a `PDict` (key set plus value function), with
real numbers embedded as exact rationals.  The global `random` source is
modelled as a stream `oracle : ℕ → ℕ`; each call of `random.choice` /
`random.choices` selects an element of its key list by indexing with the
next stream value modulo the list length.  The unbounded `while True`
loop of `iterate_pagerank` is modelled with explicit fuel, `none`
meaning the loop has not yet stopped within the given number of passes.
-/

namespace PageRank

/-- A corpus: the dict produced by `crawl`, mapping each page to the set
of pages it links to (`src/pagerank.py`).  `pages` is the key set and
`links` the value map; values of `links` outside `pages` are irrelevant. -/
structure Corpus where
  pages : Finset ℕ
  links : ℕ → Finset ℕ

/-- The corpus invariant from the data model: at least one page, and
every link target is itself a key of the corpus. -/
def Corpus.Valid (c : Corpus) : Prop :=
  c.pages.Nonempty ∧ ∀ p ∈ c.pages, c.links p ⊆ c.pages

instance (c : Corpus) : Decidable c.Valid :=
  inferInstanceAs (Decidable (c.pages.Nonempty ∧ ∀ p ∈ c.pages, c.links p ⊆ c.pages))

/-- A Python dict from pages to numbers: its key set and value map.
Values of `val` outside `keys` are irrelevant (a dict lookup of a
missing key has no value; the model returns junk there). -/
structure PDict where
  keys : Finset ℕ
  val : ℕ → ℚ

/-- `transition_model` (src/pagerank.py lines 51-78): probability
distribution over which page to visit next given a current page. -/
def transition_model (corpus : Corpus) (page : ℕ) (damping_factor : ℚ) : PDict :=
  if (corpus.links page).card = 0 then
    let prob := 1 / (corpus.pages.card : ℚ)
    ⟨corpus.pages, fun dest_page => if dest_page ∈ corpus.pages then prob else 0⟩
  else
    let prob_no_link := (1 - damping_factor) / (corpus.pages.card : ℚ)
    let prob_has_link := damping_factor / ((corpus.links page).card : ℚ) + prob_no_link
    ⟨corpus.pages, fun dest_page =>
      if dest_page ∈ corpus.pages then
        (if dest_page ∈ corpus.links page then prob_has_link else prob_no_link)
      else 0⟩

/-- The list of keys of a corpus dict, as iterated over by Python. -/
def pagesList (c : Corpus) : List ℕ := c.pages.sort (· ≤ ·)

/-- The list of keys of a number dict, as passed to `random.choices`. -/
def keysList (d : PDict) : List ℕ := d.keys.sort (· ≤ ·)

/-- `random.choice(l)` / `random.choices(l, weights)[0]`: returns an
element of the list `l`, selected here by the random stream value `r`. -/
def pick (l : List ℕ) (r : ℕ) : ℕ := l.getD (r % l.length) 0

/-- State of the sampling loop of `sample_pagerank` (lines 92-106) after
`k` iterations: the accumulating dict `PR` (as its value map; its key
set is `corpus.pages` throughout) and the current `page`.  Iteration
`k+1` increments the current page's weight by `1/n`, computes the
transition model there, and draws the next page from its key list. -/
def sampleState (corpus : Corpus) (damping_factor : ℚ) (n : ℕ) (oracle : ℕ → ℕ) :
    ℕ → (ℕ → ℚ) × ℕ
  | 0 => (fun _ => 0, pick (pagesList corpus) (oracle 0))
  | k + 1 =>
    let s := sampleState corpus damping_factor n oracle k
    let PR := fun p => if p = s.2 then s.1 p + 1 / (n : ℚ) else s.1 p
    let prob_dist := transition_model corpus s.2 damping_factor
    (PR, pick (keysList prob_dist) (oracle (k + 1)))

/-- `sample_pagerank` (src/pagerank.py lines 81-108). -/
def sample_pagerank (corpus : Corpus) (damping_factor : ℚ) (n : ℕ) (oracle : ℕ → ℕ) :
    PDict :=
  ⟨corpus.pages, (sampleState corpus damping_factor n oracle n).1⟩

/-- The dangling-page preprocessing of `iterate_pagerank` (lines
122-125): pages of the corpus with an empty link set are rewritten to
link to all pages; everything else is left unchanged. -/
def fixCorpus (corpus : Corpus) : Corpus :=
  ⟨corpus.pages, fun page =>
    if page ∈ corpus.pages ∧ (corpus.links page).card = 0 then corpus.pages
    else corpus.links page⟩

/-- The initial rank dict of `iterate_pagerank` (lines 127-134): every
page of the corpus starts at `1/N`. -/
def initPR (corpus : Corpus) : ℕ → ℚ :=
  fun page => if page ∈ corpus.pages then 1 / (corpus.pages.card : ℚ) else 0

/-- One pass of the iteration loop (lines 142-148), computed from the
previous rank vector `old_PR` over the working corpus `nc`:
`PR[page] = (1-d)/N + d * sum over origin pages linking to page of
old_PR[origin]/|links(origin)|`. -/
def prStep (nc : Corpus) (damping_factor : ℚ) (old_PR : ℕ → ℚ) : ℕ → ℚ :=
  fun page =>
    (1 - damping_factor) / (nc.pages.card : ℚ) +
      damping_factor *
        ∑ origin_page ∈ nc.pages.filter (fun origin_page => page ∈ nc.links origin_page),
          old_PR origin_page / ((nc.links origin_page).card : ℚ)

/-- The stopping condition of the loop (lines 150-154): the `repeat`
flag stays false, i.e. no page moved by more than 0.001. -/
def converged (pages : Finset ℕ) (old_PR PR : ℕ → ℚ) : Prop :=
  ∀ page ∈ pages, |PR page - old_PR page| ≤ 1 / 1000

instance (pages : Finset ℕ) (old_PR PR : ℕ → ℚ) : Decidable (converged pages old_PR PR) :=
  inferInstanceAs (Decidable (∀ page ∈ pages, |PR page - old_PR page| ≤ 1 / 1000))

/-- The `while True` loop of `iterate_pagerank` (lines 139-157), with
explicit fuel: each pass computes a full new vector from the old one,
stops and returns it when no page moved by more than 0.001, and
otherwise repeats with the new vector as the old one. -/
def iterLoop (nc : Corpus) (damping_factor : ℚ) : (ℕ → ℚ) → ℕ → Option (ℕ → ℚ)
  | _, 0 => none
  | old_PR, fuel + 1 =>
    let PR := prStep nc damping_factor old_PR
    if converged nc.pages old_PR PR then some PR
    else iterLoop nc damping_factor PR fuel

/-- `iterate_pagerank` (src/pagerank.py lines 111-159), with fuel. -/
def iterate_pagerank (corpus : Corpus) (damping_factor : ℚ) (fuel : ℕ) : Option PDict :=
  (iterLoop (fixCorpus corpus) damping_factor (initPR corpus) fuel).map
    (fun PR => ⟨corpus.pages, PR⟩)

/-- A heap of corpus-shaped dict objects, for the aliasing claims:
addresses are naturals, `next` is the next fresh address. -/
structure Heap where
  mem : ℕ → Corpus
  next : ℕ

/-- `dict.copy()`: allocate a fresh dict object with the same contents. -/
def heapAlloc (h : Heap) (c : Corpus) : ℕ × Heap :=
  (h.next, ⟨fun a => if a = h.next then c else h.mem a, h.next + 1⟩)

/-- `d[k] = v` on the dict object at address `a` (for `k` already a key
of that dict: the key set is unchanged, the entry is rebound). -/
def heapSetLink (h : Heap) (a : ℕ) (k : ℕ) (v : Finset ℕ) : Heap :=
  ⟨fun b =>
    if b = a then ⟨(h.mem a).pages, fun q => if q = k then v else (h.mem a).links q⟩
    else h.mem b, h.next⟩

/-- `sample_pagerank` with its corpus argument passed by reference: the
function body contains no assignment to any corpus dict, so the heap is
returned unchanged. -/
def sample_pagerank_heap (ca : ℕ) (damping_factor : ℚ) (n : ℕ) (oracle : ℕ → ℕ)
    (h : Heap) : PDict × Heap :=
  (sample_pagerank (h.mem ca) damping_factor n oracle, h)

/-- `iterate_pagerank` with its corpus argument passed by reference at
address `ca`: the body first copies the corpus (`new_corpus =
corpus.copy()`, a fresh object), then rewrites the dangling entries of
the copy in place, and runs the iteration on the copy. -/
def iterate_pagerank_heap (ca : ℕ) (damping_factor : ℚ) (fuel : ℕ) (h : Heap) :
    Option (ℕ → ℚ) × Heap :=
  let na := (heapAlloc h (h.mem ca)).1
  let h1 := (heapAlloc h (h.mem ca)).2
  let h2 := (pagesList (h1.mem na)).foldl
    (fun hh page =>
      if ((hh.mem na).links page).card = 0 then heapSetLink hh na page (hh.mem na).pages
      else hh) h1
  (iterLoop (h2.mem na) damping_factor (initPR (h.mem ca)) fuel, h2)

/-- A two-page corpus `{0 ↦ {1}, 1 ↦ {0}}`, used as concrete input. -/
def cTwo : Corpus := ⟨{0, 1}, fun p => if p = 0 then {1} else if p = 1 then {0} else ∅⟩

/-- A three-page corpus `{0 ↦ {1}, 1 ↦ {0}, 2 ↦ {0}}`, used as concrete
input. -/
def cCycle : Corpus :=
  ⟨{0, 1, 2}, fun p =>
    if p = 0 then {1} else if p = 1 then {0} else if p = 2 then {0} else ∅⟩

/-- A two-page corpus with a dangling page, `{0 ↦ {1}, 1 ↦ {}}`. -/
def cDangle : Corpus := ⟨{0, 1}, fun p => if p = 0 then {1} else ∅⟩

/-- A one-page corpus `{0 ↦ {0}}`, used as concrete input. -/
def cOne : Corpus := ⟨{0}, fun _ => {0}⟩

/-- First vector of the period-two cycle the iteration falls into on
`cCycle` with damping factor 1. -/
def w1 : ℕ → ℚ := fun p => if p = 0 then 2/3 else if p = 1 then 1/3 else 0

/-- Second vector of the period-two cycle the iteration falls into on
`cCycle` with damping factor 1. -/
def w2 : ℕ → ℚ := fun p => if p = 0 then 1/3 else if p = 1 then 2/3 else 0

/-! ### Basic lemmas -/

lemma transition_model_keys (c : Corpus) (page : ℕ) (d : ℚ) :
    (transition_model c page d).keys = c.pages := by
  unfold transition_model
  split <;> rfl

lemma sort_ne_nil {s : Finset ℕ} (h : s.Nonempty) : s.sort (· ≤ ·) ≠ [] := by
  intro hnil
  obtain ⟨x, hx⟩ := h
  have hmem : x ∈ s.sort (· ≤ ·) := (Finset.mem_sort (· ≤ ·)).mpr hx
  rw [hnil] at hmem
  exact List.not_mem_nil x hmem

lemma pick_mem {l : List ℕ} (h : l ≠ []) (r : ℕ) : pick l r ∈ l := by
  have hlen : 0 < l.length := List.length_pos.mpr h
  unfold pick
  rw [List.getD_eq_getElem l 0 (Nat.mod_lt r hlen)]
  exact List.getElem_mem _

/-- The page the sampling loop stands on is always a key of the corpus:
the start page is drawn from the corpus key list, every later page from
the key list of a transition-model dict, whose keys are the corpus
pages. -/
lemma sampleState_page_mem (c : Corpus) (d : ℚ) (n : ℕ) (oracle : ℕ → ℕ)
    (hne : c.pages.Nonempty) : ∀ k, (sampleState c d n oracle k).2 ∈ c.pages := by
  intro k
  induction k with
  | zero =>
    have hp : pick (pagesList c) (oracle 0) ∈ pagesList c :=
      pick_mem (sort_ne_nil hne) _
    simpa [sampleState, pagesList, Finset.mem_sort] using hp
  | succ k ih =>
    have hkeys : (transition_model c (sampleState c d n oracle k).2 d).keys = c.pages :=
      transition_model_keys _ _ _
    have hnil : keysList (transition_model c (sampleState c d n oracle k).2 d) ≠ [] := by
      unfold keysList
      rw [hkeys]
      exact sort_ne_nil hne
    have hx : ∀ x ∈ keysList (transition_model c (sampleState c d n oracle k).2 d),
        x ∈ c.pages := by
      intro x hmem
      unfold keysList at hmem
      rw [Finset.mem_sort] at hmem
      rwa [hkeys] at hmem
    exact hx _ (pick_mem hnil (oracle (k + 1)))

/-! ### Claim theorems: transition model -/

/-- Claim C1: for every corpus containing `page` as a key and every
damping factor in `[0,1]`, `transition_model` returns the distribution
given by: if `page` has no outbound links, every page of the corpus gets
`1/|corpus|`; otherwise every page `p` gets `(1-d)/|corpus|`, plus
`d/|outLinks(page)|` exactly when `p` is among `page`'s outbound
links. -/
theorem transition_model_formula (c : Corpus) (page : ℕ) (d : ℚ)
    (hpage : page ∈ c.pages) (hd0 : 0 ≤ d) (hd1 : d ≤ 1) :
    (∀ p ∈ c.pages, (c.links page).card = 0 →
        (transition_model c page d).val p = 1 / (c.pages.card : ℚ)) ∧
    (∀ p ∈ c.pages, (c.links page).card ≠ 0 →
        (transition_model c page d).val p =
          (1 - d) / (c.pages.card : ℚ) +
            (if p ∈ c.links page then d / ((c.links page).card : ℚ) else 0)) := by
  constructor
  · intro p hp h0
    simp [transition_model, h0, hp]
  · intro p hp h0
    simp only [transition_model, h0, if_false, hp, if_true]
    split_ifs with h <;> ring

/-- Concrete instance of `transition_model_formula` on `cTwo`. -/
theorem transition_model_formula_witness :
    (transition_model cTwo 0 (17/20)).val 1 =
      (1 - 17/20) / ((cTwo.pages.card : ℚ)) +
        (if 1 ∈ cTwo.links 0 then (17/20) / ((cTwo.links 0).card : ℚ) else 0) :=
  (transition_model_formula cTwo 0 (17/20) (by decide) (by norm_num) (by norm_num)).2
    1 (by decide) (by decide)

/-- Claim C5: for every valid corpus, page in the corpus and damping
factor in `[0,1]`, the returned distribution has keys exactly the
corpus's pages and its values sum to 1 exactly. -/
theorem transition_model_distribution (c : Corpus) (page : ℕ) (d : ℚ)
    (hv : c.Valid) (hpage : page ∈ c.pages) (hd0 : 0 ≤ d) (hd1 : d ≤ 1) :
    (transition_model c page d).keys = c.pages ∧
    ∑ p ∈ (transition_model c page d).keys, (transition_model c page d).val p = 1 := by
  obtain ⟨hne, hsub⟩ := hv
  have hNpos : 0 < c.pages.card := Finset.card_pos.mpr hne
  have hN : (c.pages.card : ℚ) ≠ 0 := by positivity
  refine ⟨transition_model_keys _ _ _, ?_⟩
  rw [transition_model_keys]
  by_cases h0 : (c.links page).card = 0
  · have hval : ∀ p ∈ c.pages,
        (transition_model c page d).val p = 1 / (c.pages.card : ℚ) := by
      intro p hp
      simp [transition_model, h0, hp]
    rw [Finset.sum_congr rfl hval, Finset.sum_const, nsmul_eq_mul]
    field_simp
  · have hL : ((c.links page).card : ℚ) ≠ 0 := by exact_mod_cast h0
    have hval : ∀ p ∈ c.pages,
        (transition_model c page d).val p =
          (1 - d) / (c.pages.card : ℚ) +
            (if p ∈ c.links page then d / ((c.links page).card : ℚ) else 0) := by
      intro p hp
      simp only [transition_model, h0, if_false, hp, if_true]
      split_ifs with h <;> ring
    rw [Finset.sum_congr rfl hval, Finset.sum_add_distrib, Finset.sum_const,
      ← Finset.sum_filter, Finset.filter_mem_eq_inter,
      Finset.inter_eq_right.mpr (hsub page hpage), Finset.sum_const,
      nsmul_eq_mul, nsmul_eq_mul]
    field_simp

/-- Concrete instance of `transition_model_distribution` on `cTwo`. -/
theorem transition_model_distribution_witness :
    (transition_model cTwo 0 (17/20)).keys = cTwo.pages ∧
    ∑ p ∈ (transition_model cTwo 0 (17/20)).keys, (transition_model cTwo 0 (17/20)).val p = 1 :=
  transition_model_distribution cTwo 0 (17/20) (by decide) (by decide)
    (by norm_num) (by norm_num)

/-! ### Claim theorems: iteration preprocessing and determinism -/

/-- Claim C3: `iterate_pagerank`'s working corpus rewrites every
dangling page to link to all pages of the corpus (itself included),
leaves non-dangling pages' link sets unchanged, and the initial rank of
every page is `1/N`. -/
theorem iterate_pagerank_preprocessing (c : Corpus) :
    (fixCorpus c).pages = c.pages ∧
    (∀ p ∈ c.pages, (c.links p).card = 0 →
        (fixCorpus c).links p = c.pages ∧ p ∈ (fixCorpus c).links p) ∧
    (∀ p ∈ c.pages, (c.links p).card ≠ 0 → (fixCorpus c).links p = c.links p) ∧
    (∀ p ∈ c.pages, initPR c p = 1 / (c.pages.card : ℚ)) := by
  refine ⟨rfl, ?_, ?_, ?_⟩
  · intro p hp h0
    have hcond : p ∈ c.pages ∧ (c.links p).card = 0 := ⟨hp, h0⟩
    constructor
    · show (if p ∈ c.pages ∧ (c.links p).card = 0 then c.pages else c.links p) = c.pages
      rw [if_pos hcond]
    · show p ∈ (if p ∈ c.pages ∧ (c.links p).card = 0 then c.pages else c.links p)
      rw [if_pos hcond]
      exact hp
  · intro p hp h0
    have hcond : ¬(p ∈ c.pages ∧ (c.links p).card = 0) := fun hc => h0 hc.2
    show (if p ∈ c.pages ∧ (c.links p).card = 0 then c.pages else c.links p) = c.links p
    rw [if_neg hcond]
  · intro p hp
    simp [initPR, hp]

/-- Concrete instance of `iterate_pagerank_preprocessing` on
`cDangle`, whose page 1 is dangling. -/
theorem iterate_pagerank_preprocessing_witness :
    ((fixCorpus cDangle).links 1 = cDangle.pages ∧ 1 ∈ (fixCorpus cDangle).links 1) ∧
    (fixCorpus cDangle).links 0 = cDangle.links 0 ∧
    initPR cDangle 0 = 1 / (cDangle.pages.card : ℚ) :=
  ⟨(iterate_pagerank_preprocessing cDangle).2.1 1 (by decide) (by decide),
   (iterate_pagerank_preprocessing cDangle).2.2.1 0 (by decide) (by decide),
   (iterate_pagerank_preprocessing cDangle).2.2.2 0 (by decide)⟩

/-- Claim C8: `iterate_pagerank` is deterministic: two calls with
identical inputs return identical rank vectors.  (Its embedding takes no
random stream at all, unlike `sample_pagerank`: the source makes no call
into `random`.) -/
theorem iterate_pagerank_deterministic (c c' : Corpus) (d d' : ℚ) (fuel fuel' : ℕ)
    (hc : c = c') (hd : d = d') (hf : fuel = fuel') :
    iterate_pagerank c d fuel = iterate_pagerank c' d' fuel' := by
  subst hc
  subst hd
  subst hf
  rfl

/-- Concrete instance of `iterate_pagerank_deterministic` on `cTwo`. -/
theorem iterate_pagerank_deterministic_witness :
    iterate_pagerank cTwo (17/20) 5 = iterate_pagerank cTwo (17/20) 5 :=
  iterate_pagerank_deterministic cTwo cTwo (17/20) (17/20) 5 5 rfl rfl rfl

/-! ### Claim theorems: the corpus argument is never mutated -/

lemma heapSetLink_mem_ne (h : Heap) (a k : ℕ) (v : Finset ℕ) {b : ℕ} (hb : b ≠ a) :
    (heapSetLink h a k v).mem b = h.mem b := by
  simp [heapSetLink, hb]

lemma fixFold_mem_ne (l : List ℕ) (na : ℕ) (h0 : Heap) {b : ℕ} (hb : b ≠ na) :
    (l.foldl
        (fun hh page =>
          if ((hh.mem na).links page).card = 0 then heapSetLink hh na page (hh.mem na).pages
          else hh) h0).mem b = h0.mem b := by
  induction l generalizing h0 with
  | nil => rfl
  | cons p t ih =>
    rw [List.foldl_cons, ih]
    by_cases hc : ((h0.mem na).links p).card = 0
    · rw [if_pos hc]
      exact heapSetLink_mem_ne h0 na p _ hb
    · rw [if_neg hc]

/-- Claim C9: neither estimator mutates its corpus argument: after any
call of `sample_pagerank` or `iterate_pagerank`, the corpus object the
argument points to is unchanged (keys and every link set);
`iterate_pagerank` only writes to its private copy, allocated fresh. -/
theorem estimators_do_not_mutate_corpus :
    (∀ (h : Heap) (ca : ℕ) (d : ℚ) (n : ℕ) (oracle : ℕ → ℕ),
        ((sample_pagerank_heap ca d n oracle h).2).mem ca = h.mem ca) ∧
    (∀ (h : Heap) (ca : ℕ) (d : ℚ) (fuel : ℕ), ca < h.next →
        ((iterate_pagerank_heap ca d fuel h).2).mem ca = h.mem ca) := by
  constructor
  · intro h ca d n oracle
    rfl
  · intro h ca d fuel hca
    have hne : ca ≠ h.next := Nat.ne_of_lt hca
    simp only [iterate_pagerank_heap]
    rw [fixFold_mem_ne _ ((heapAlloc h (h.mem ca)).1) _
      (show ca ≠ (heapAlloc h (h.mem ca)).1 from hne)]
    simp [heapAlloc, hne]

/-- Concrete instance of `estimators_do_not_mutate_corpus` on a
one-object heap holding `cTwo`. -/
theorem estimators_do_not_mutate_corpus_witness :
    ((sample_pagerank_heap 0 (17/20) 3 (fun i => i) ⟨fun _ => cTwo, 1⟩).2).mem 0 = cTwo ∧
    ((iterate_pagerank_heap 0 (17/20) 2 ⟨fun _ => cTwo, 1⟩).2).mem 0 = cTwo :=
  ⟨estimators_do_not_mutate_corpus.1 ⟨fun _ => cTwo, 1⟩ 0 (17/20) 3 (fun i => i),
   estimators_do_not_mutate_corpus.2 ⟨fun _ => cTwo, 1⟩ 0 (17/20) 2 (by decide)⟩

/-! ### Claim theorems: sampling-loop safety -/

/-- Claim C10: within `sample_pagerank`, every page at which
`transition_model` is invoked is a key of the corpus: the start page is
drawn from the corpus's key list and every subsequent page from the key
list of a transition distribution, whose keys are exactly the corpus's
pages — so the `corpus[page]` lookup never fails. -/
theorem sample_pagerank_calls_in_corpus (c : Corpus) (d : ℚ) (n : ℕ) (oracle : ℕ → ℕ)
    (hv : c.Valid) : ∀ k, (sampleState c d n oracle k).2 ∈ c.pages :=
  sampleState_page_mem c d n oracle hv.1

/-- Concrete instance of `sample_pagerank_calls_in_corpus` on `cTwo`. -/
theorem sample_pagerank_calls_in_corpus_witness :
    (sampleState cTwo (17/20) 3 (fun i => i) 1).2 ∈ cTwo.pages :=
  sample_pagerank_calls_in_corpus cTwo (17/20) 3 (fun i => i) (by decide) 1

/-! ### Claim theorems: sampling distribution -/

lemma sampleState_fst_succ (c : Corpus) (d : ℚ) (n : ℕ) (oracle : ℕ → ℕ) (k : ℕ) :
    (sampleState c d n oracle (k + 1)).1 =
      fun p => if p = (sampleState c d n oracle k).2
        then (sampleState c d n oracle k).1 p + 1 / (n : ℚ)
        else (sampleState c d n oracle k).1 p := rfl

/-- After `k` steps of the sampling loop, the accumulated weights over
the corpus pages sum to `k/n`: each step adds `1/n` at the current page,
which is always a corpus page. -/
lemma sampleState_sum (c : Corpus) (d : ℚ) (n : ℕ) (oracle : ℕ → ℕ)
    (hne : c.pages.Nonempty) (k : ℕ) :
    ∑ p ∈ c.pages, (sampleState c d n oracle k).1 p = k * (1 / (n : ℚ)) := by
  induction k with
  | zero => simp [sampleState]
  | succ k ih =>
    have hcur := sampleState_page_mem c d n oracle hne k
    rw [sampleState_fst_succ]
    have hsplit : ∀ p ∈ c.pages,
        (if p = (sampleState c d n oracle k).2
          then (sampleState c d n oracle k).1 p + 1 / (n : ℚ)
          else (sampleState c d n oracle k).1 p)
        = (sampleState c d n oracle k).1 p
            + (if p = (sampleState c d n oracle k).2 then 1 / (n : ℚ) else 0) := by
      intro p _
      split_ifs <;> ring
    rw [Finset.sum_congr rfl hsplit, Finset.sum_add_distrib, ih,
      Finset.sum_ite_eq' c.pages ((sampleState c d n oracle k).2) (fun _ => 1 / (n : ℚ)),
      if_pos hcur]
    push_cast
    ring

/-- Claim C4: for every valid corpus, damping factor in `[0,1]`, sample
count `n ≥ 1` and every sequence of random draws, `sample_pagerank`
returns a dict whose keys are exactly the corpus pages, in which each of
the `n` steps adds exactly `1/n` at exactly one page (the current one),
so the returned values sum to 1. -/
theorem sample_pagerank_distribution (c : Corpus) (d : ℚ) (n : ℕ) (oracle : ℕ → ℕ)
    (hv : c.Valid) (hd0 : 0 ≤ d) (hd1 : d ≤ 1) (hn : 1 ≤ n) :
    (sample_pagerank c d n oracle).keys = c.pages ∧
    (∀ k, (sampleState c d n oracle (k + 1)).1 =
      fun p => if p = (sampleState c d n oracle k).2
        then (sampleState c d n oracle k).1 p + 1 / (n : ℚ)
        else (sampleState c d n oracle k).1 p) ∧
    ∑ p ∈ (sample_pagerank c d n oracle).keys, (sample_pagerank c d n oracle).val p = 1 := by
  refine ⟨rfl, fun k => sampleState_fst_succ c d n oracle k, ?_⟩
  have hn0 : (n : ℚ) ≠ 0 := Nat.cast_ne_zero.mpr (by omega)
  show ∑ p ∈ c.pages, (sampleState c d n oracle n).1 p = 1
  rw [sampleState_sum c d n oracle hv.1 n]
  field_simp

/-- Concrete instance of `sample_pagerank_distribution` on `cTwo` with
three samples. -/
theorem sample_pagerank_distribution_witness :
    (sample_pagerank cTwo (17/20) 3 (fun i => i)).keys = cTwo.pages ∧
    ∑ p ∈ (sample_pagerank cTwo (17/20) 3 (fun i => i)).keys,
      (sample_pagerank cTwo (17/20) 3 (fun i => i)).val p = 1 :=
  ⟨(sample_pagerank_distribution cTwo (17/20) 3 (fun i => i)
      (by decide) (by norm_num) (by norm_num) (by norm_num)).1,
   (sample_pagerank_distribution cTwo (17/20) 3 (fun i => i)
      (by decide) (by norm_num) (by norm_num) (by norm_num)).2.2⟩

/-! ### The iteration loop: unfolding and characterisation -/

lemma iterLoop_zero (nc : Corpus) (d : ℚ) (v : ℕ → ℚ) : iterLoop nc d v 0 = none := rfl

lemma iterLoop_succ (nc : Corpus) (d : ℚ) (v : ℕ → ℚ) (fuel : ℕ) :
    iterLoop nc d v (fuel + 1) =
      if converged nc.pages v (prStep nc d v) then some (prStep nc d v)
      else iterLoop nc d (prStep nc d v) fuel := rfl

/-- If the loop stops, it stops at the first pass whose full new vector
is within 0.001 of the old one, and returns exactly that vector: the
`k+1`-st Jacobi iterate of the start vector. -/
lemma iterLoop_some (nc : Corpus) (d : ℚ) :
    ∀ (fuel : ℕ) (v r : ℕ → ℚ), iterLoop nc d v fuel = some r →
      ∃ k < fuel, r = (prStep nc d)^[k + 1] v ∧
        converged nc.pages ((prStep nc d)^[k] v) ((prStep nc d)^[k + 1] v) ∧
        ∀ j < k, ¬ converged nc.pages ((prStep nc d)^[j] v) ((prStep nc d)^[j + 1] v) := by
  intro fuel
  induction fuel with
  | zero =>
    intro v r h
    rw [iterLoop_zero] at h
    cases h
  | succ fuel ih =>
    intro v r h
    rw [iterLoop_succ] at h
    by_cases hc : converged nc.pages v (prStep nc d v)
    · rw [if_pos hc] at h
      refine ⟨0, Nat.succ_pos fuel, ?_, ?_, ?_⟩
      · simpa using (Option.some.inj h).symm
      · simpa using hc
      · intro j hj
        exact absurd hj (Nat.not_lt_zero j)
    · rw [if_neg hc] at h
      obtain ⟨k, hk, hr, hcv, hprev⟩ := ih (prStep nc d v) r h
      refine ⟨k + 1, by omega, ?_, ?_, ?_⟩
      · rw [hr, ← Function.iterate_succ_apply]
      · simp only [Function.iterate_succ_apply] at hcv ⊢
        exact hcv
      · intro j hj
        cases j with
        | zero => simpa using hc
        | succ j =>
          have hp := hprev j (by omega)
          simp only [Function.iterate_succ_apply] at hp ⊢
          exact hp

/-- If the loop has not stopped within `fuel` passes, no pass so far met
the convergence test. -/
lemma iterLoop_none (nc : Corpus) (d : ℚ) :
    ∀ (fuel : ℕ) (v : ℕ → ℚ), iterLoop nc d v fuel = none →
      ∀ j < fuel, ¬ converged nc.pages ((prStep nc d)^[j] v) ((prStep nc d)^[j + 1] v) := by
  intro fuel
  induction fuel with
  | zero =>
    intro v _ j hj
    exact absurd hj (Nat.not_lt_zero j)
  | succ fuel ih =>
    intro v h j hj
    rw [iterLoop_succ] at h
    by_cases hc : converged nc.pages v (prStep nc d v)
    · rw [if_pos hc] at h
      cases h
    · rw [if_neg hc] at h
      cases j with
      | zero => simpa using hc
      | succ j =>
        have hp := ih (prStep nc d v) h j (by omega)
        simp only [Function.iterate_succ_apply] at hp ⊢
        exact hp

/-- Claim C2: each pass of `iterate_pagerank` computes, for every page
`p`, `newRank[p] = (1-d)/N + d * Σ over origin pages q that link to p of
oldRank[q]/|outLinks(q)|` over the dangling-fixed working corpus,
reading only the previous pass's full vector (the returned vector is an
iterate of the pure pass function `prStep`, i.e. a synchronous/Jacobi
update); the loop stops at the first pass where every page moved by at
most 0.001 and returns that pass's new vector. -/
theorem iterate_pagerank_update_rule (c : Corpus) (d : ℚ) (fuel : ℕ) (r : PDict)
    (h : iterate_pagerank c d fuel = some r) :
    (∀ (v : ℕ → ℚ) (p : ℕ), prStep (fixCorpus c) d v p =
        (1 - d) / (c.pages.card : ℚ) +
          d * ∑ q ∈ c.pages.filter (fun q => p ∈ (fixCorpus c).links q),
              v q / (((fixCorpus c).links q).card : ℚ)) ∧
    r.keys = c.pages ∧
    ∃ k < fuel, r.val = (prStep (fixCorpus c) d)^[k + 1] (initPR c) ∧
      converged c.pages ((prStep (fixCorpus c) d)^[k] (initPR c))
        ((prStep (fixCorpus c) d)^[k + 1] (initPR c)) ∧
      ∀ j < k, ¬ converged c.pages ((prStep (fixCorpus c) d)^[j] (initPR c))
        ((prStep (fixCorpus c) d)^[j + 1] (initPR c)) := by
  unfold iterate_pagerank at h
  rw [Option.map_eq_some'] at h
  obtain ⟨v, hv, hr⟩ := h
  obtain ⟨k, hk, hrv, hcv, hprev⟩ := iterLoop_some (fixCorpus c) d fuel (initPR c) v hv
  refine ⟨fun u p => rfl, ?_, k, hk, ?_, hcv, hprev⟩
  · rw [← hr]
  · rw [← hr]
    exact hrv

lemma prStep_cOne (d : ℚ) (v : ℕ → ℚ) :
    prStep (fixCorpus cOne) d v 0 = (1 - d) + d * v 0 := by
  unfold prStep
  rw [show (fixCorpus cOne).pages.filter (fun q => 0 ∈ (fixCorpus cOne).links q) = {0}
      from by decide]
  rw [Finset.sum_singleton]
  rw [show (fixCorpus cOne).links 0 = ({0} : Finset ℕ) from by decide]
  rw [show (fixCorpus cOne).pages.card = 1 from by decide]
  norm_num

/-- Concrete instance of `iterate_pagerank_update_rule`: on `cOne` with
damping 1/2 the loop stops after the first pass and returns a dict with
the corpus's keys. -/
theorem iterate_pagerank_update_rule_witness :
    iterate_pagerank cOne (1/2) 1 =
      some ⟨cOne.pages, prStep (fixCorpus cOne) (1/2) (initPR cOne)⟩ ∧
    (⟨cOne.pages, prStep (fixCorpus cOne) (1/2) (initPR cOne)⟩ : PDict).keys = cOne.pages := by
  have hconv : converged (fixCorpus cOne).pages (initPR cOne)
      (prStep (fixCorpus cOne) (1/2) (initPR cOne)) := by
    intro p hp
    have hp0 : p = 0 := by
      have : p ∈ ({0} : Finset ℕ) := hp
      simpa using this
    subst hp0
    rw [prStep_cOne]
    have hi : initPR cOne 0 = 1 := by
      unfold initPR
      rw [if_pos (show (0:ℕ) ∈ cOne.pages from by decide)]
      rw [show cOne.pages.card = 1 from by decide]
      norm_num
    rw [hi]
    norm_num
  have hW : iterate_pagerank cOne (1/2) 1 =
      some ⟨cOne.pages, prStep (fixCorpus cOne) (1/2) (initPR cOne)⟩ := by
    unfold iterate_pagerank
    rw [iterLoop_succ, if_pos hconv]
    rfl
  exact ⟨hW, (iterate_pagerank_update_rule cOne (1/2) 1 _ hW).2.1⟩

/-! ### Claim C6: the code performs no input validation -/

/-- Claim C6 (refuting the claimed behaviour of the code): called with
damping factor 2 — outside `[0,1]` — on the valid two-page corpus
`cTwo`, `transition_model` does not fail at all: it returns an ordinary
dict that assigns page 0 the negative "probability" `-(1/2)`.  The
source contains no precondition check whatsoever, so invalid parameters
are accepted silently rather than rejected with a descriptive error. -/
theorem transition_model_no_validation :
    (transition_model cTwo 0 2).val 0 = -(1/2) := by
  have h0 : ¬ (cTwo.links 0).card = 0 := by decide
  simp only [transition_model, h0, if_false]
  rw [if_pos (show (0:ℕ) ∈ cTwo.pages from by decide),
    if_neg (show ¬ (0:ℕ) ∈ cTwo.links 0 from by decide),
    show cTwo.pages.card = 2 from by decide]
  norm_num

/-! ### Claim C7: termination of the iteration loop -/

/-- Evaluation of one pass on `cCycle`: the corpus has no dangling page,
so the working corpus keeps the link sets `0 ↦ {1}`, `1 ↦ {0}`,
`2 ↦ {0}`, and the pass formula specialises as computed here. -/
lemma prStep_cCycle (d : ℚ) (v : ℕ → ℚ) (p : ℕ) :
    prStep (fixCorpus cCycle) d v p =
      (1 - d) / 3 + d * (if p = 0 then v 1 + v 2 else if p = 1 then v 0 else 0) := by
  unfold prStep
  rw [show (fixCorpus cCycle).pages.card = 3 from by decide]
  by_cases hp0 : p = 0
  · subst hp0
    rw [show (fixCorpus cCycle).pages.filter (fun q => 0 ∈ (fixCorpus cCycle).links q)
        = ({1, 2} : Finset ℕ) from by decide]
    rw [Finset.sum_insert (by decide), Finset.sum_singleton]
    rw [show (fixCorpus cCycle).links 1 = ({0} : Finset ℕ) from by decide,
      show (fixCorpus cCycle).links 2 = ({0} : Finset ℕ) from by decide]
    norm_num
  · by_cases hp1 : p = 1
    · subst hp1
      rw [show (fixCorpus cCycle).pages.filter (fun q => 1 ∈ (fixCorpus cCycle).links q)
          = ({0} : Finset ℕ) from by decide]
      rw [Finset.sum_singleton]
      rw [show (fixCorpus cCycle).links 0 = ({1} : Finset ℕ) from by decide]
      norm_num
    · have hfilt : (fixCorpus cCycle).pages.filter (fun q => p ∈ (fixCorpus cCycle).links q)
          = ∅ := by
        rw [Finset.filter_eq_empty_iff]
        intro q hq
        have hq3 : q = 0 ∨ q = 1 ∨ q = 2 := by
          have : q ∈ ({0, 1, 2} : Finset ℕ) := hq
          simpa using this
        rcases hq3 with h | h | h <;> subst h
        · rw [show (fixCorpus cCycle).links 0 = ({1} : Finset ℕ) from by decide]
          simp [hp1]
        · rw [show (fixCorpus cCycle).links 1 = ({0} : Finset ℕ) from by decide]
          simp [hp0]
        · rw [show (fixCorpus cCycle).links 2 = ({0} : Finset ℕ) from by decide]
          simp [hp0]
      rw [hfilt, Finset.sum_empty]
      simp [hp0, hp1]

lemma initPR_cCycle (p : ℕ) (hp : p ∈ cCycle.pages) : initPR cCycle p = 1/3 := by
  unfold initPR
  rw [if_pos hp, show cCycle.pages.card = 3 from by decide]
  norm_num

lemma prStep_cCycle_init : prStep (fixCorpus cCycle) 1 (initPR cCycle) = w1 := by
  funext p
  rw [prStep_cCycle, initPR_cCycle 1 (by decide)]
  unfold w1
  by_cases hp0 : p = 0
  · subst hp0
    rw [initPR_cCycle 2 (by decide)]
    norm_num
  · by_cases hp1 : p = 1
    · subst hp1
      rw [initPR_cCycle 0 (by decide)]
      norm_num
    · simp [hp0, hp1]

lemma prStep_cCycle_w1 : prStep (fixCorpus cCycle) 1 w1 = w2 := by
  funext p
  rw [prStep_cCycle]
  by_cases hp0 : p = 0
  · subst hp0
    norm_num [w1, w2]
  · by_cases hp1 : p = 1
    · subst hp1
      norm_num [w1, w2]
    · simp [w1, w2, hp0, hp1]

lemma prStep_cCycle_w2 : prStep (fixCorpus cCycle) 1 w2 = w1 := by
  funext p
  rw [prStep_cCycle]
  by_cases hp0 : p = 0
  · subst hp0
    norm_num [w1, w2]
  · by_cases hp1 : p = 1
    · subst hp1
      norm_num [w1, w2]
    · simp [w1, w2, hp0, hp1]

lemma not_conv_cCycle_init : ¬ converged (fixCorpus cCycle).pages (initPR cCycle) w1 := by
  intro h
  have h0 := h 0 (by decide)
  rw [initPR_cCycle 0 (by decide)] at h0
  norm_num [w1] at h0
  rw [abs_le] at h0
  exact absurd h0.2 (by norm_num)

lemma not_conv_cCycle_w1 : ¬ converged (fixCorpus cCycle).pages w1 w2 := by
  intro h
  have h0 := h 0 (by decide)
  norm_num [w1, w2] at h0
  rw [abs_le] at h0
  exact absurd h0.2 (by norm_num)

lemma not_conv_cCycle_w2 : ¬ converged (fixCorpus cCycle).pages w2 w1 := by
  intro h
  have h0 := h 0 (by decide)
  norm_num [w1, w2] at h0
  rw [abs_le] at h0
  exact absurd h0.2 (by norm_num)

lemma iterLoop_cCycle_none :
    ∀ fuel, iterLoop (fixCorpus cCycle) 1 w1 fuel = none ∧
      iterLoop (fixCorpus cCycle) 1 w2 fuel = none := by
  intro fuel
  induction fuel with
  | zero => exact ⟨rfl, rfl⟩
  | succ fuel ih =>
    constructor
    · rw [iterLoop_succ, prStep_cCycle_w1, if_neg not_conv_cCycle_w1]
      exact ih.2
    · rw [iterLoop_succ, prStep_cCycle_w2, if_neg not_conv_cCycle_w2]
      exact ih.1

/-- Claim C7 counterexample: on the valid corpus `cCycle` with damping
factor 1 — which the claim's range `[0,1]` admits — the loop never meets
the convergence test: the iterates cycle between `w1` and `w2`, whose
page-0 values differ by 1/3, so `iterate_pagerank` returns no result
for any number of passes. -/
theorem iterate_pagerank_divergence_at_one :
    cCycle.Valid ∧ ¬ ∃ fuel r, iterate_pagerank cCycle 1 fuel = some r := by
  refine ⟨by decide, ?_⟩
  rintro ⟨fuel, r, h⟩
  unfold iterate_pagerank at h
  rw [Option.map_eq_some'] at h
  obtain ⟨v, hv, _⟩ := h
  cases fuel with
  | zero =>
    rw [iterLoop_zero] at hv
    cases hv
  | succ fuel =>
    rw [iterLoop_succ, prStep_cCycle_init, if_neg not_conv_cCycle_init,
      (iterLoop_cCycle_none fuel).1] at hv
    cases hv

/-! ### Termination of the loop for damping factors below 1

One pass is an affine map whose linear part has L1 operator norm at most
the damping factor: over the dangling-fixed corpus every page has a
nonempty link set contained in the pages, so the column sums of the
transition structure are exactly 1.  Hence successive pass differences
shrink geometrically and eventually every page moves by at most 0.001. -/

lemma prStep_sub (nc : Corpus) (d : ℚ) (v w : ℕ → ℚ) (p : ℕ) :
    prStep nc d v p - prStep nc d w p =
      d * ∑ q ∈ nc.pages.filter (fun q => p ∈ nc.links q),
          (v q - w q) / ((nc.links q).card : ℚ) := by
  unfold prStep
  rw [add_sub_add_left_eq_sub, ← mul_sub, ← Finset.sum_sub_distrib]
  congr 1
  refine Finset.sum_congr rfl fun q _ => ?_
  rw [div_sub_div_same]

lemma prStep_abs_le (nc : Corpus) (d : ℚ) (hd0 : 0 ≤ d) (v w : ℕ → ℚ) (p : ℕ) :
    |prStep nc d v p - prStep nc d w p| ≤
      d * ∑ q ∈ nc.pages.filter (fun q => p ∈ nc.links q),
          |v q - w q| / ((nc.links q).card : ℚ) := by
  rw [prStep_sub, abs_mul, abs_of_nonneg hd0]
  refine mul_le_mul_of_nonneg_left ?_ hd0
  refine le_trans (Finset.abs_sum_le_sum_abs _ _) ?_
  refine Finset.sum_le_sum fun q _ => ?_
  rw [abs_div, Nat.abs_cast]

/-- One pass contracts L1 distances by a factor of the damping factor,
provided every page of the working corpus has a nonempty link set
contained in the pages (true after the dangling fix on a valid
corpus). -/
lemma prStep_l1_contraction (nc : Corpus) (d : ℚ) (hd0 : 0 ≤ d)
    (hsub : ∀ q ∈ nc.pages, nc.links q ⊆ nc.pages)
    (hcard : ∀ q ∈ nc.pages, (nc.links q).card ≠ 0)
    (v w : ℕ → ℚ) :
    ∑ p ∈ nc.pages, |prStep nc d v p - prStep nc d w p| ≤
      d * ∑ q ∈ nc.pages, |v q - w q| := by
  calc ∑ p ∈ nc.pages, |prStep nc d v p - prStep nc d w p|
      ≤ ∑ p ∈ nc.pages, d * ∑ q ∈ nc.pages.filter (fun q => p ∈ nc.links q),
          |v q - w q| / ((nc.links q).card : ℚ) :=
        Finset.sum_le_sum fun p _ => prStep_abs_le nc d hd0 v w p
    _ = d * ∑ p ∈ nc.pages, ∑ q ∈ nc.pages.filter (fun q => p ∈ nc.links q),
          |v q - w q| / ((nc.links q).card : ℚ) := by
        rw [Finset.mul_sum]
    _ = d * ∑ q ∈ nc.pages, |v q - w q| := by
        congr 1
        have hsplit : ∀ p ∈ nc.pages,
            (∑ q ∈ nc.pages.filter (fun q => p ∈ nc.links q),
              |v q - w q| / ((nc.links q).card : ℚ))
            = ∑ q ∈ nc.pages,
                if p ∈ nc.links q then |v q - w q| / ((nc.links q).card : ℚ) else 0 :=
          fun p _ => Finset.sum_filter _ _
        rw [Finset.sum_congr rfl hsplit, Finset.sum_comm]
        refine Finset.sum_congr rfl fun q hq => ?_
        rw [← Finset.sum_filter, Finset.filter_mem_eq_inter,
          Finset.inter_eq_right.mpr (hsub q hq), Finset.sum_const, nsmul_eq_mul]
        have hcq : ((nc.links q).card : ℚ) ≠ 0 := Nat.cast_ne_zero.mpr (hcard q hq)
        rw [mul_comm, div_mul_cancel₀ _ hcq]

lemma fixCorpus_links_subset (c : Corpus) (hsubc : ∀ p ∈ c.pages, c.links p ⊆ c.pages) :
    ∀ q ∈ (fixCorpus c).pages, (fixCorpus c).links q ⊆ (fixCorpus c).pages := by
  intro q hq
  show (if q ∈ c.pages ∧ (c.links q).card = 0 then c.pages else c.links q) ⊆ c.pages
  split_ifs with h
  · exact Finset.Subset.refl _
  · exact hsubc q hq

lemma fixCorpus_links_card (c : Corpus) (hne : c.pages.Nonempty) :
    ∀ q ∈ (fixCorpus c).pages, ((fixCorpus c).links q).card ≠ 0 := by
  intro q hq
  show (if q ∈ c.pages ∧ (c.links q).card = 0 then c.pages else c.links q).card ≠ 0
  split_ifs with h
  · have := Finset.card_pos.mpr hne
    omega
  · intro h0
    exact h ⟨hq, h0⟩

/-- Claim C7, amended to damping factors strictly below 1: the iteration
reaches a pass in which every page's absolute change is at most 0.001,
and the function returns.  (At damping factor exactly 1 this fails, see
`iterate_pagerank_divergence_at_one`.) -/
theorem iterate_pagerank_terminates (c : Corpus) (d : ℚ)
    (hv : c.Valid) (hd0 : 0 ≤ d) (hd1 : d < 1) :
    ∃ fuel r, iterate_pagerank c d fuel = some r := by
  obtain ⟨hne, hsubc⟩ := hv
  have hsub := fixCorpus_links_subset c hsubc
  have hcard := fixCorpus_links_card c hne
  set nc := fixCorpus c with hnc
  set f : (ℕ → ℚ) → (ℕ → ℚ) := prStep nc d with hf
  set e : ℕ → ℚ := fun k =>
    ∑ q ∈ nc.pages, |f^[k + 1] (initPR c) q - f^[k] (initPR c) q| with he
  have he_succ : ∀ k, e (k + 1) ≤ d * e k := by
    intro k
    have h := prStep_l1_contraction nc d hd0 hsub hcard
      (f^[k + 1] (initPR c)) (f^[k] (initPR c))
    have hv2 : prStep nc d (f^[k + 1] (initPR c)) = f^[k + 2] (initPR c) :=
      (Function.iterate_succ_apply' f (k + 1) (initPR c)).symm
    have hv1 : prStep nc d (f^[k] (initPR c)) = f^[k + 1] (initPR c) :=
      (Function.iterate_succ_apply' f k (initPR c)).symm
    rw [hv2, hv1] at h
    exact h
  have he_pow : ∀ k, e k ≤ d ^ k * e 0 := by
    intro k
    induction k with
    | zero => simp
    | succ k ih =>
      calc e (k + 1) ≤ d * e k := he_succ k
        _ ≤ d * (d ^ k * e 0) := mul_le_mul_of_nonneg_left ih hd0
        _ = d ^ (k + 1) * e 0 := by ring
  have he0 : 0 ≤ e 0 := Finset.sum_nonneg fun q _ => abs_nonneg _
  obtain ⟨k, hk⟩ : ∃ k, d ^ k * e 0 ≤ 1 / 1000 := by
    obtain ⟨k, hk⟩ := exists_pow_lt_of_lt_one
      (x := (1 / 1000) / (e 0 + 1)) (by positivity) hd1
    refine ⟨k, ?_⟩
    have h1 : (0:ℚ) < e 0 + 1 := by linarith
    have h2 : d ^ k * (e 0 + 1) < 1 / 1000 := (lt_div_iff₀ h1).mp hk
    have h3 : d ^ k * e 0 ≤ d ^ k * (e 0 + 1) :=
      mul_le_mul_of_nonneg_left (by linarith) (pow_nonneg hd0 k)
    linarith
  have hconv : converged nc.pages (f^[k] (initPR c)) (f^[k + 1] (initPR c)) := by
    intro p hp
    have hterm : |f^[k + 1] (initPR c) p - f^[k] (initPR c) p| ≤ e k :=
      Finset.single_le_sum (f := fun q => |f^[k + 1] (initPR c) q - f^[k] (initPR c) q|)
        (fun q _ => abs_nonneg _) hp
    calc |f^[k + 1] (initPR c) p - f^[k] (initPR c) p| ≤ e k := hterm
      _ ≤ d ^ k * e 0 := he_pow k
      _ ≤ 1 / 1000 := hk
  refine ⟨k + 1, ?_⟩
  cases hloop : iterLoop nc d (initPR c) (k + 1) with
  | some v =>
    refine ⟨⟨c.pages, v⟩, ?_⟩
    unfold iterate_pagerank
    rw [← hnc, hloop]
    rfl
  | none =>
    exact absurd hconv (iterLoop_none nc d (k + 1) (initPR c) hloop k (Nat.lt_succ_self k))

/-- Concrete instance of `iterate_pagerank_terminates` on `cTwo` with
damping 17/20. -/
theorem iterate_pagerank_terminates_witness :
    ∃ fuel r, iterate_pagerank cTwo (17/20) fuel = some r :=
  iterate_pagerank_terminates cTwo (17/20) (by decide) (by norm_num) (by norm_num)

end PageRank
